import Mathlib

/-!
Verification development for the canvas reel player
(`src/components/CanvasReelPlayer.tsx`).

The embedding follows the source closely:
* JavaScript numbers are modelled as rationals (`ℚ`); all arithmetic in the
  player is exact on the values the claims mention.
* JavaScript strings are modelled as `List Char`; `String.prototype.split(' ')`
  and `Array.prototype.join(' ')` are modelled by `splitOnSpace` / `joinSpace`
  below, which keep empty fragments exactly as the JavaScript functions do.
* The canvas 2D context is modelled by a trace of draw operations (`DrawOp`);
  `ctx.measureText` is an arbitrary function `List Char → ℚ` supplied as a
  parameter.
* Component state updates (`setIsPlaying` etc.) are modelled as immediately
  visible mutable state: the controllers are state machines whose steps are
  the source's event handlers and animation-frame callbacks.
-/

/-- Source: `easeInOutCubic` (CanvasReelPlayer.tsx lines 12-14):
`t < 0.5 ? 4 * t * t * t : 1 - Math.pow(-2 * t + 2, 3) / 2`. -/
def easeInOutCubic (t : ℚ) : ℚ :=
  if t < 0.5 then 4 * t * t * t else 1 - (-2 * t + 2) ^ 3 / 2

/-- Model of JavaScript `text.split(' ')` on `List Char`: splits at every
space character, keeping empty fragments (JS `''.split(' ') = ['']`,
`'a  b'.split(' ') = ['a','','b']`). -/
def splitOnSpace : List Char → List (List Char)
  | [] => [[]]
  | c :: cs =>
    if c = ' ' then [] :: splitOnSpace cs
    else
      match splitOnSpace cs with
      | [] => [[c]]
      | w :: ws => (c :: w) :: ws

/-- Model of JavaScript `lines.join(' ')` on `List (List Char)`. -/
def joinSpace : List (List Char) → List Char
  | [] => []
  | l :: ls =>
    match ls with
    | [] => l
    | _ :: _ => l ++ ' ' :: joinSpace ls

/-- Source: the loop body and epilogue of `wrapText`
(CanvasReelPlayer.tsx lines 16-32).  `current` is the candidate line being
accumulated, `lines` the committed lines (the JS `lines.push` accumulator).
The JS truthiness test `current ?` / `&& current` is `current ≠ []`. -/
def wrapTextGo (measure : List Char → ℚ) (maxWidth : ℚ) :
    List (List Char) → List Char → List (List Char) → List (List Char)
  | [], current, lines =>
      -- after the loop: `if (current) lines.push(current); return lines`
      if current ≠ [] then lines ++ [current] else lines
  | w :: ws, current, lines =>
      -- `const test = current ? current + ' ' + w : w` (inlined below)
      -- `if (wWidth > maxWidth && current) { lines.push(current); current = w }`
      -- `else current = test`
      if maxWidth < measure (if current ≠ [] then current ++ ' ' :: w else w) ∧
          current ≠ [] then
        wrapTextGo measure maxWidth ws w (lines ++ [current])
      else
        wrapTextGo measure maxWidth ws
          (if current ≠ [] then current ++ ' ' :: w else w) lines

/-- Source: `wrapText` (CanvasReelPlayer.tsx lines 16-32). -/
def wrapText (measure : List Char → ℚ) (text : List Char) (maxWidth : ℚ) :
    List (List Char) :=
  wrapTextGo measure maxWidth (splitOnSpace text) [] []

/-- Width measure used for concrete evaluations: every character one unit. -/
def lenMeasure (s : List Char) : ℚ := s.length

/-- One timed segment of the reel: `{ text, durationMs }` (data model of the
plan consumed by the renderer). -/
structure Beat where
  text : List Char
  durationMs : ℚ
deriving DecidableEq

/-- Source: `plan?.beats.reduce((a, b) => a + b.durationMs, 0)`
(CanvasReelPlayer.tsx line 44), on the beat list. -/
def totalDuration (beats : List Beat) : ℚ :=
  beats.foldl (fun a b => a + b.durationMs) 0

/-- Sum of the durations of a beat list (specification-side prefix sums). -/
def sumDur (beats : List Beat) : ℚ := (beats.map (·.durationMs)).sum

/-- Cumulative start of beat `i`: sum of the durations before it. -/
def cumDur (beats : List Beat) (i : ℕ) : ℚ := sumDur (beats.take i)

/-- Source: the beat-resolution loop of `drawFrame`
(CanvasReelPlayer.tsx lines 63-70).  `i` is the loop counter, `t` the
remaining elapsed time, `beatStart` the accumulated start offset.  Mirrors
the JS exactly: `beatIndex` is initialised to `0` and only updated by the
`break`, so if the loop exhausts the list the returned index is `0`. -/
def beatScanGo : List Beat → ℕ → ℚ → ℚ → ℕ × ℚ × ℚ
  | [], _i, t, beatStart => (0, t, beatStart)
  | b :: bs, i, t, beatStart =>
    if t < b.durationMs then (i, t, beatStart)
    else beatScanGo bs (i + 1) (t - b.durationMs) (beatStart + b.durationMs)

/-- The beat-resolution scan of `drawFrame` started from the loop's initial
state (`let t = elapsed; let beatIndex = 0; let beatStart = 0`).
Returns `(beatIndex, t, beatStart)` as left by the loop. -/
def beatScan (beats : List Beat) (elapsed : ℚ) : ℕ × ℚ × ℚ :=
  beatScanGo beats 0 elapsed 0

/-- Source: `const progress = beat ? Math.min(1, Math.max(0, t / beat.durationMs)) : 0`
(CanvasReelPlayer.tsx line 72), with `beat = plan?.beats[beatIndex]`. -/
def progressAt (beats : List Beat) (elapsed : ℚ) : ℚ :=
  match beats[(beatScan beats elapsed).1]? with
  | some b => min 1 (max 0 ((beatScan beats elapsed).2.1 / b.durationMs))
  | none => 0

/-- The beats of Scenario B of the spec: `[A:1000ms, B:2000ms]`. -/
def demoBeats : List Beat :=
  [⟨"A".toList, 1000⟩, ⟨"B".toList, 2000⟩]

/-- The reel plan as read by the renderer.  The renderer reads `title`,
`cta` and `hashtags` through defensive accesses (`plan?.title || 'Reel'`,
`plan?.cta || ''`, `plan?.hashtags?.slice(0,3)`), so absence of those
fields is representable (`Option`); `beats` is accessed as `plan!.beats`
and is always present. -/
structure ReelPlan where
  title : Option (List Char)
  hook : Option (List Char)
  cta : Option (List Char)
  hashtags : Option (List (List Char))
  beats : List Beat
  captions : List (List Char)
deriving DecidableEq

/-- Source: `const title = plan?.title || 'Reel'` (line 81).  JS `||` takes
the fallback on `undefined` (missing plan or field) and on the empty
string (falsy). -/
def titleTextOf (plan : Option ReelPlan) : List Char :=
  match plan with
  | none => "Reel".toList
  | some p =>
    match p.title with
    | none => "Reel".toList
    | some s => if s = [] then "Reel".toList else s

/-- Source: `const cta = plan?.cta || ''` (line 115). -/
def ctaTextOf (plan : Option ReelPlan) : List Char :=
  match plan with
  | none => []
  | some p =>
    match p.cta with
    | none => []
    | some s => s

/-- Source: `const tags = plan?.hashtags?.slice(0, 3).join(' ') ?? ''`
(line 120). -/
def tagsTextOf (plan : Option ReelPlan) : List Char :=
  match plan with
  | none => []
  | some p =>
    match p.hashtags with
    | none => []
    | some hs => joinSpace (hs.take 3)

/-- One canvas-context call issued by `drawFrame`. -/
inductive DrawOp where
  | clearRect (x y w h : ℚ)
  | setFillGradient (c0 c1 : String) (x0 y0 x1 y1 : ℚ)
  | setFillStyle (s : String)
  | setFont (f : String)
  | setTextBaseline (s : String)
  | fillRect (x y w h : ℚ)
  | fillTextOp (text : List Char) (x y : ℚ)
  | setGlobalAlpha (a : ℚ)
deriving DecidableEq

/-- The beat-resolution loop as executed inside `drawFrame`
(lines 63-70), with the JavaScript partiality made explicit: the loop
body reads `plan!.beats[i]`, which throws if `plan` is `null` or the
index is out of range (`none` models the thrown exception).  The first
argument of the recursion is the remaining number of iterations
(`(plan?.beats.length ?? 0) - i`). -/
def scanLoop (plan : Option ReelPlan) : ℕ → ℕ → ℚ → ℚ → Option (ℕ × ℚ × ℚ)
  | 0, _i, t, beatStart => some (0, t, beatStart)
  | n + 1, i, t, beatStart =>
    match plan with
    | none => none
    | some p =>
      match p.beats[i]? with
      | none => none
      | some b =>
        if t < b.durationMs then some (i, t, beatStart)
        else scanLoop plan n (i + 1) (t - b.durationMs) (beatStart + b.durationMs)

/-- Source: `drawFrame` (CanvasReelPlayer.tsx lines 46-124), for a surface
with a valid 2D context of size `cw × ch`.  Returns the trace of context
calls, or `none` if the JavaScript body would throw.  `measure` models
`ctx.measureText(s).width`. -/
def drawFrame (measure : List Char → ℚ) (cw ch : ℚ)
    (plan : Option ReelPlan) (elapsed : ℚ) : Option (List DrawOp) :=
  let len := match plan with | none => 0 | some p => p.beats.length
  match scanLoop plan len 0 elapsed 0 with
  | none => none
  | some (beatIndex, t, _beatStart) =>
    let beat : Option Beat := match plan with
      | none => none
      | some p => p.beats[beatIndex]?
    let progress : ℚ := match beat with
      | some b => min 1 (max 0 (t / b.durationMs))
      | none => 0
    let total := match plan with | none => 0 | some p => totalDuration p.beats
    let p := if 0 < total then elapsed / total else 0
    let beatOps : List DrawOp := match beat with
      | none => []
      | some b =>
        let lines := wrapText measure b.text (cw - 128)
        let lineH : ℚ := 88
        let totalH : ℚ := (lines.length : ℚ) * lineH
        let baseY := ch / 2 - totalH / 2
        let eased := easeInOutCubic (min 1 (progress * 1.2))
        [DrawOp.setFont "900 84px Inter, ui-sans-serif",
         DrawOp.setFillStyle "white",
         DrawOp.setTextBaseline "top"] ++
        (lines.enum.map (fun q =>
          [DrawOp.setGlobalAlpha (0.2 + 0.8 * eased),
           DrawOp.fillTextOp q.2 64 (baseY + (q.1 : ℚ) * lineH + (1 - eased) * 40),
           DrawOp.setGlobalAlpha 1])).flatten
    some (
      [DrawOp.clearRect 0 0 cw ch,
       DrawOp.setFillGradient "#0ea5e9" "#111827" 0 0 cw ch,
       DrawOp.fillRect 0 0 cw ch,
       DrawOp.setFillStyle "rgba(0,0,0,0.15)",
       DrawOp.fillRect 0 0 cw ch,
       DrawOp.setFillStyle "rgba(255,255,255,0.85)",
       DrawOp.setFont "bold 56px Inter, ui-sans-serif",
       DrawOp.fillTextOp (titleTextOf plan) 64 120,
       DrawOp.setFillStyle "rgba(255,255,255,0.2)",
       DrawOp.fillRect 64 140 (cw - 128) 8,
       DrawOp.setFillStyle "#22c55e",
       DrawOp.fillRect 64 140 ((cw - 128) * max 0 (min 1 p)) 8]
      ++ beatOps ++
      [DrawOp.setFont "600 48px Inter, ui-sans-serif",
       DrawOp.setFillStyle "#d1fae5",
       DrawOp.fillTextOp (ctaTextOf plan) ((cw - measure (ctaTextOf plan)) / 2) (ch - 160),
       DrawOp.setFont "500 36px Inter, ui-sans-serif",
       DrawOp.setFillStyle "rgba(255,255,255,0.9)",
       DrawOp.fillTextOp (tagsTextOf plan) 64 (ch - 100)])

/-- Preview playback state of the component: the `isPlaying` flag, the
`startTimeRef` anchor, and the number of animation-frame callbacks
currently scheduled (`requestAnimationFrame` bookkeeping behind
`rafRef`).  State updates are modelled as immediately visible. -/
structure PrevState where
  isPlaying : Bool
  startTime : ℚ
  rafPending : ℕ
deriving DecidableEq

/-- Source: `play` (CanvasReelPlayer.tsx lines 139-144):
`if (!plan || isPlaying) return; setIsPlaying(true);
startTimeRef.current = performance.now();
rafRef.current = requestAnimationFrame(tick)`. -/
def play (plan : Option ReelPlan) (now : ℚ) (s : PrevState) : PrevState :=
  if plan.isNone ∨ s.isPlaying then s
  else { isPlaying := true, startTime := now, rafPending := s.rafPending + 1 }

/-- Source: `stop` (CanvasReelPlayer.tsx lines 146-151): clears the flag and
anchor and cancels the pending scheduled callback. -/
def stop (s : PrevState) : PrevState :=
  { isPlaying := false, startTime := 0, rafPending := s.rafPending - 1 }

/-- Source: `tick` (CanvasReelPlayer.tsx lines 126-137), as a transition on
the preview state: the fired callback is consumed; past the total duration
the loop stops, otherwise it reschedules. -/
def tick (total now : ℚ) (s : PrevState) : PrevState :=
  if ¬s.isPlaying ∨ s.startTime = 0 then { s with rafPending := s.rafPending - 1 }
  else if total ≤ now - s.startTime then
    { isPlaying := false, startTime := 0, rafPending := s.rafPending - 1 }
  else { s with rafPending := s.rafPending - 1 + 1 }

/-- Full-resolution target for capture: `FULL_W` (line 34). -/
def FULL_W : ℚ := 1080

/-- Full-resolution target for capture: `FULL_H` (line 35). -/
def FULL_H : ℚ := 1920

/-- The drawing surface's geometry: the canvas `width`/`height` attributes
and its CSS `style.width`/`style.height` (in px). -/
structure Geometry where
  w : ℚ
  h : ℚ
  styleW : ℚ
  styleH : ℚ
deriving DecidableEq

/-- Source: the resize effect (CanvasReelPlayer.tsx lines 205-216): the
canvas geometry the component maintains before a capture, for preview
props `width × height`. -/
def effectGeom (width height : ℚ) : Geometry :=
  let scale := min (FULL_W / width) (FULL_H / height)
  ⟨((⌊width * scale⌋ : ℤ) : ℚ), ((⌊height * scale⌋ : ℤ) : ℚ), width, height⟩

/-- Source: the geometry written after a successful capture
(CanvasReelPlayer.tsx lines 194-197):
`canvas.width = Math.floor(FULL_W * (width / FULL_W));
canvas.height = Math.floor(FULL_H * (height / FULL_H));
canvas.style.width = width + 'px'; canvas.style.height = height + 'px'` —
computed from the props, not from the snapshot taken at line 158. -/
def restoredGeom (width height : ℚ) : Geometry :=
  ⟨((⌊FULL_W * (width / FULL_W)⌋ : ℤ) : ℚ),
   ((⌊FULL_H * (height / FULL_H)⌋ : ℤ) : ℚ), width, height⟩

/-- State of one `recordFullPlayback` invocation. `prev` is the snapshot
`prevW/prevH/prevStyle` (line 158), `geom` the live surface geometry,
`recStopped` whether `recorder.stop()` has been called, `outcome` whether
the returned promise has resolved (with the artifact), `draws` the elapsed
times passed to `drawFrame`, in order. -/
structure CapState where
  geom : Geometry
  prev : Geometry
  isPlaying : Bool
  startTime : ℚ
  recStopped : Bool
  outcome : Option Unit
  draws : List ℚ
deriving DecidableEq

/-- Events that can reach an in-flight capture: a fired animation-frame
callback of the capture loop (line 177), or an external `stop()` call on
the component (lines 146-151). -/
inductive CapEvent where
  | loopTick (now : ℚ)
  | extStop
deriving DecidableEq

/-- Source: `recordFullPlayback` prologue (CanvasReelPlayer.tsx
lines 156-176): snapshot the geometry, resize to full resolution, start
the recorder, set the playing flag and anchor, schedule the loop. -/
def capInit (geom0 : Geometry) (now : ℚ) : CapState :=
  { geom := ⟨FULL_W, FULL_H, FULL_W, FULL_H⟩
    prev := geom0
    isPlaying := true
    startTime := now
    recStopped := false
    outcome := none
    draws := [] }

/-- One event step of an in-flight capture (immediately-visible state
semantics, single cooperative timeline).

* `extStop`: the component's `stop()` (lines 146-151) — clears the flag
  and anchor and renders the `elapsed = 0` frame.  It does not touch the
  recorder or the capture's geometry.
* `loopTick now`: the capture loop body (lines 177-188).  If the flag was
  cleared the loop returns without stopping the recorder (line 178), so
  the `await done` at line 191 never resumes.  Once the timeline is
  complete it renders the final frame, stops the recorder; `onstop`
  resolves `done`, and the code after the `await` (lines 194-198) runs in
  the same step: geometry is rewritten from the props and the
  `elapsed = 0` frame is rendered; the promise resolves with the blob. -/
def capStep (total width height : ℚ) (s : CapState) : CapEvent → CapState
  | CapEvent.extStop =>
    { s with isPlaying := false, startTime := 0, draws := s.draws ++ [0] }
  | CapEvent.loopTick now =>
    if ¬s.isPlaying then s
    else
      let elapsed := now - s.startTime
      if total ≤ elapsed then
        { s with
            draws := s.draws ++ [total, 0]
            isPlaying := false
            recStopped := true
            geom := restoredGeom width height
            outcome := some () }
      else { s with draws := s.draws ++ [elapsed] }

/-- A whole capture run: `recordFullPlayback` called at time `now0` on a
plan of total duration `total`, with preview props `width × height` and
pre-capture geometry `geom0`, then the given events. -/
def runCapture (total width height : ℚ) (geom0 : Geometry) (now0 : ℚ)
    (events : List CapEvent) : CapState :=
  events.foldl (capStep total width height) (capInit geom0 now0)

/-- Adversarial measurement function for the idempotence counterexample:
`'a '` (with its trailing space) measures wider than the limit, while
every other string, including `'a b'`, fits. -/
def cexMeasure (s : List Char) : ℚ := if s = ['a', ' '] then 10 else 3

/-- Text with a double space (an empty word in the middle). -/
def cexText : List Char := "a  b".toList

/-- A plan value with none of the optional text fields present. -/
def planNoFields : ReelPlan :=
  { title := none, hook := none, cta := none, hashtags := none
    beats := [], captions := [] }

/-- Trivial measurement function (every string has width `0`). -/
def zeroMeasure (_s : List Char) : ℚ := 0

/-- A fully populated demo plan over `demoBeats`. -/
def demoPlan : ReelPlan :=
  { title := some "T".toList, hook := some "H".toList, cta := some "C".toList
    hashtags := some ["#a".toList], beats := demoBeats, captions := [] }

/-- A capture of a 1000 ms plan at preview props `400 × 640` that is
stopped externally (component `stop()`) before the first capture tick;
the tick then fires at `now = 5`. -/
def capDemoStopped : CapState :=
  runCapture 1000 400 640 (effectGeom 400 640) 0
    [CapEvent.extStop, CapEvent.loopTick 5]

/-- A capture of a 1000 ms plan at preview props `400 × 640` that runs to
completion: the capture tick fires at `now = 1000`, past the total
duration. -/
def capDemoSuccess : CapState :=
  runCapture 1000 400 640 (effectGeom 400 640) 0 [CapEvent.loopTick 1000]

theorem splitOnSpace_ne_nil (s : List Char) : splitOnSpace s ≠ [] := by
  cases s with
  | nil => simp [splitOnSpace]
  | cons c cs =>
    simp only [splitOnSpace]
    split
    · simp
    · split <;> simp

theorem splitOnSpace_no_space (s : List Char) :
    ∀ w ∈ splitOnSpace s, ' ' ∉ w := by
  induction s with
  | nil =>
    intro w hw
    simp [splitOnSpace] at hw
    simp [hw]
  | cons c cs ih =>
    intro w hw
    simp only [splitOnSpace] at hw
    by_cases h : c = ' '
    · rw [if_pos h] at hw
      rcases List.mem_cons.1 hw with h1 | h1
      · simp [h1]
      · exact ih w h1
    · rw [if_neg h] at hw
      cases hsp : splitOnSpace cs with
      | nil => exact absurd hsp (splitOnSpace_ne_nil cs)
      | cons v vs =>
        rw [hsp] at hw
        rcases List.mem_cons.1 hw with h1 | h1
        · subst h1
          intro hc
          rcases List.mem_cons.1 hc with h2 | h2
          · exact h h2.symm
          · exact ih v (by rw [hsp]; exact List.mem_cons_self _ _) h2
        · exact ih w (by rw [hsp]; exact List.mem_cons_of_mem _ h1)

theorem joinSpace_single (l : List Char) : joinSpace [l] = l := rfl

theorem joinSpace_cons₂ (a b : List Char) (ls : List (List Char)) :
    joinSpace (a :: b :: ls) = a ++ ' ' :: joinSpace (b :: ls) := rfl

theorem joinSpace_splitOnSpace (s : List Char) :
    joinSpace (splitOnSpace s) = s := by
  induction s with
  | nil => simp [splitOnSpace, joinSpace]
  | cons c cs ih =>
    simp only [splitOnSpace]
    by_cases h : c = ' '
    · rw [if_pos h]
      cases hsp : splitOnSpace cs with
      | nil => exact absurd hsp (splitOnSpace_ne_nil cs)
      | cons v vs =>
        rw [hsp] at ih
        rw [joinSpace_cons₂, List.nil_append, ih, h]
    · rw [if_neg h]
      cases hsp : splitOnSpace cs with
      | nil => exact absurd hsp (splitOnSpace_ne_nil cs)
      | cons v vs =>
        rw [hsp] at ih
        cases vs with
        | nil =>
          rw [joinSpace_single] at ih ⊢
          rw [ih]
        | cons v2 vs2 =>
          rw [joinSpace_cons₂] at ih ⊢
          rw [List.cons_append, ih]

theorem splitOnSpace_append_space (a b : List Char) :
    splitOnSpace (a ++ ' ' :: b) = splitOnSpace a ++ splitOnSpace b := by
  induction a with
  | nil => simp [splitOnSpace]
  | cons c cs ih =>
    by_cases h : c = ' '
    · simp only [List.cons_append, splitOnSpace, if_pos h, List.append_eq, ih,
        List.cons_append]
    · cases hsp : splitOnSpace cs with
      | nil => exact absurd hsp (splitOnSpace_ne_nil cs)
      | cons v vs =>
        simp only [List.cons_append, splitOnSpace, if_neg h, List.append_eq, ih,
          hsp]

theorem splitOnSpace_of_no_space (w : List Char) (h : ' ' ∉ w) :
    splitOnSpace w = [w] := by
  induction w with
  | nil => simp [splitOnSpace]
  | cons c cs ih =>
    simp only [List.mem_cons, not_or] at h
    have hcc : ¬c = ' ' := fun e => h.1 (Eq.symm e)
    simp only [splitOnSpace, if_neg hcc, ih h.2]

theorem splitOnSpace_joinSpace (seg : List (List Char)) (hne : seg ≠ [])
    (h : ∀ w ∈ seg, ' ' ∉ w) : splitOnSpace (joinSpace seg) = seg := by
  induction seg with
  | nil => exact absurd rfl hne
  | cons w ws ih =>
    cases ws with
    | nil => exact splitOnSpace_of_no_space w (h w (by simp))
    | cons w2 ws2 =>
      rw [joinSpace_cons₂, splitOnSpace_append_space,
        splitOnSpace_of_no_space w (h w (by simp)),
        ih (by simp) (fun v hv => h v (List.mem_cons_of_mem _ hv))]
      simp

theorem joinSpace_ne_nil (w : List Char) (ws : List (List Char)) (h : w ≠ []) :
    joinSpace (w :: ws) ≠ [] := by
  cases ws with
  | nil => simpa [joinSpace_single] using h
  | cons w2 ws2 => simp [joinSpace_cons₂]

theorem joinSpace_append_single (seg : List (List Char)) (w : List Char)
    (hne : seg ≠ []) :
    joinSpace (seg ++ [w]) = joinSpace seg ++ ' ' :: w := by
  induction seg with
  | nil => exact absurd rfl hne
  | cons v vs ih =>
    cases vs with
    | nil => simp [joinSpace_single, joinSpace_cons₂]
    | cons v2 vs2 =>
      have h2 : (v2 :: vs2) ++ [w] = v2 :: (vs2 ++ [w]) := rfl
      rw [List.cons_append, h2, joinSpace_cons₂, ← h2, ih (by simp),
        joinSpace_cons₂]
      simp

theorem wrapTextGo_acc (measure : List Char → ℚ) (maxWidth : ℚ) :
    ∀ (ws : List (List Char)) (cur : List Char) (lines : List (List Char)),
    wrapTextGo measure maxWidth ws cur lines =
      lines ++ wrapTextGo measure maxWidth ws cur [] := by
  intro ws
  induction ws with
  | nil =>
    intro cur lines
    by_cases hc : cur = [] <;> simp [wrapTextGo, hc]
  | cons w ws ih =>
    intro cur lines
    by_cases hc : cur = []
    · subst hc
      simp only [wrapTextGo, ne_eq, not_true_eq_false, and_false, if_false]
      exact ih _ _
    · simp only [wrapTextGo, if_pos hc]
      split
    
      · rw [ih w (lines ++ [cur]), ih w ([] ++ [cur])]
        simp
      · exact ih _ _

theorem wrapTextGo_ne_nil (measure : List Char → ℚ) (maxWidth : ℚ) :
    ∀ (ws : List (List Char)) (cur : List Char), cur ≠ [] →
    wrapTextGo measure maxWidth ws cur [] ≠ [] := by
  intro ws
  induction ws with
  | nil =>
    intro cur hc
    simp [wrapTextGo, if_pos hc]
  | cons w ws ih =>
    intro cur hc
    simp only [wrapTextGo, if_pos hc]
    split
    · rw [wrapTextGo_acc]
      simp
    · exact ih (cur ++ ' ' :: w) (by simp)

theorem wrapTextGo_lines_fit (measure : List Char → ℚ) (maxWidth : ℚ)
    (W : List (List Char)) :
    ∀ (ws : List (List Char)) (cur : List Char) (lines : List (List Char)),
    (∀ w ∈ ws, w ∈ W) →
    (cur = [] ∨ measure cur ≤ maxWidth ∨ cur ∈ W) →
    (∀ l ∈ lines, measure l ≤ maxWidth ∨ l ∈ W) →
    ∀ l ∈ wrapTextGo measure maxWidth ws cur lines,
      measure l ≤ maxWidth ∨ l ∈ W := by
  intro ws
  induction ws with
  | nil =>
    intro cur lines _hws hcur hlines l hl
    by_cases hc : cur = []
    · rw [show wrapTextGo measure maxWidth [] cur lines = lines by
        simp [wrapTextGo, hc]] at hl
      exact hlines l hl
    · rw [show wrapTextGo measure maxWidth [] cur lines = lines ++ [cur] by
        simp [wrapTextGo, hc]] at hl
      rcases List.mem_append.1 hl with h1 | h1
      · exact hlines l h1
      · rcases hcur with h2 | h2
        · exact absurd h2 (by simpa using (List.mem_singleton.1 h1) ▸ hc)
        · exact (List.mem_singleton.1 h1) ▸ h2
  | cons w ws ih =>
    intro cur lines hws hcur hlines l hl
    have hwW : w ∈ W := hws w (by simp)
    have hwsW : ∀ u ∈ ws, u ∈ W := fun u hu => hws u (List.mem_cons_of_mem _ hu)
    by_cases hc : cur = []
    · subst hc
      simp only [wrapTextGo, ne_eq, not_true_eq_false, and_false, if_false] at hl
      exact ih w lines hwsW (Or.inr (Or.inr hwW)) hlines l hl
    · simp only [wrapTextGo, if_pos hc] at hl
      by_cases hm : maxWidth < measure (cur ++ ' ' :: w)
      · rw [if_pos ⟨hm, hc⟩] at hl
        refine ih w (lines ++ [cur]) hwsW (Or.inr (Or.inr hwW)) ?_ l hl
        intro u hu
        rcases List.mem_append.1 hu with h1 | h1
        · exact hlines u h1
        · rcases hcur with h2 | h2
          · exact absurd h2 (by simpa using (List.mem_singleton.1 h1) ▸ hc)
          · exact (List.mem_singleton.1 h1) ▸ h2
      · rw [if_neg (fun hand => hm hand.1)] at hl
        exact ih (cur ++ ' ' :: w) lines hwsW
          (Or.inr (Or.inl (not_lt.1 hm))) hlines l hl

theorem wrapTextGo_split_roundtrip (measure : List Char → ℚ) (maxWidth : ℚ) :
    ∀ (ws seg : List (List Char)),
    (∀ w ∈ ws, w ≠ [] ∧ ' ' ∉ w) →
    (∀ w ∈ seg, w ≠ [] ∧ ' ' ∉ w) →
    (seg = [] → ws ≠ []) →
    splitOnSpace (joinSpace
      (wrapTextGo measure maxWidth ws (joinSpace seg) [])) = seg ++ ws := by
  intro ws
  induction ws with
  | nil =>
    intro seg _hws hseg hne
    cases seg with
    | nil => exact absurd rfl (hne rfl)
    | cons v vs =>
      have hjoin : joinSpace (v :: vs) ≠ [] :=
        joinSpace_ne_nil v vs (hseg v (by simp)).1
      simp only [wrapTextGo, if_pos hjoin, List.nil_append, joinSpace_single]
      rw [splitOnSpace_joinSpace (v :: vs) (by simp)
        (fun u hu => (hseg u hu).2)]
      simp
  | cons w ws ih =>
    intro seg hws hseg hne
    have hw := hws w (by simp)
    have hwtail : ∀ u ∈ ws, u ≠ [] ∧ ' ' ∉ u :=
      fun u hu => hws u (List.mem_cons_of_mem _ hu)
    have hsingle : ∀ u ∈ [w], u ≠ [] ∧ ' ' ∉ u :=
      fun u hu => (List.mem_singleton.1 hu) ▸ hw
    cases seg with
    | nil =>
      simp only [joinSpace, wrapTextGo, ne_eq, not_true_eq_false, and_false,
        if_false]
      have hih := ih [w] hwtail hsingle (by simp)
      rw [joinSpace_single] at hih
      simpa using hih
    | cons v vs =>
      have hvne : joinSpace (v :: vs) ≠ [] :=
        joinSpace_ne_nil v vs (hseg v (by simp)).1
      simp only [wrapTextGo, if_pos hvne]
      split
      · rw [wrapTextGo_acc]
        cases hrw : wrapTextGo measure maxWidth ws w [] with
        | nil => exact absurd hrw (wrapTextGo_ne_nil measure maxWidth ws w hw.1)
        | cons r rs =>
          simp only [List.nil_append, List.cons_append]
          rw [joinSpace_cons₂, splitOnSpace_append_space,
            splitOnSpace_joinSpace (v :: vs) (by simp)
              (fun u hu => (hseg u hu).2)]
          have hih := ih [w] hwtail hsingle (by simp)
          rw [joinSpace_single, hrw] at hih
          rw [hih]
          simp
      · rw [← joinSpace_append_single (v :: vs) w (by simp)]
        have hih := ih ((v :: vs) ++ [w]) hwtail
          (fun u hu => by
            rcases List.mem_append.1 hu with h1 | h1
            · exact hseg u h1
            · exact (List.mem_singleton.1 h1) ▸ hw)
          (by simp)
        rw [hih]
        simp

theorem wrapTextGo_join (measure : List Char → ℚ) (maxWidth : ℚ) :
    ∀ (ws : List (List Char)) (cur : List Char), cur ≠ [] →
    (∀ w ∈ ws, w ≠ []) →
    joinSpace (wrapTextGo measure maxWidth ws cur []) =
      joinSpace (cur :: ws) := by
  intro ws
  induction ws with
  | nil =>
    intro cur hc _
    simp [wrapTextGo, if_pos hc]
  | cons w ws ih =>
    intro cur hc hne
    have hw : w ≠ [] := hne w (by simp)
    have hnetail : ∀ u ∈ ws, u ≠ [] := fun u hu => hne u (List.mem_cons_of_mem _ hu)
    simp only [wrapTextGo, if_pos hc]
    split
    · rw [wrapTextGo_acc]
      cases hrw : wrapTextGo measure maxWidth ws w [] with
      | nil => exact absurd hrw (wrapTextGo_ne_nil measure maxWidth ws w hw)
      | cons r rs =>
        simp only [List.nil_append, List.cons_append]
        rw [joinSpace_cons₂, joinSpace_cons₂]
        have hih := ih w hw hnetail
        rw [hrw] at hih
        rw [hih]
    · rw [ih (cur ++ ' ' :: w) (by simp) hnetail]
      cases ws with
      | nil => rw [joinSpace_single, joinSpace_cons₂, joinSpace_single]
      | cons w2 ws2 =>
        rw [joinSpace_cons₂, joinSpace_cons₂, joinSpace_cons₂]
        simp

theorem joinSpace_nil : joinSpace [] = [] := rfl

/-- C6: for every input text, maximum width and measurement function, every
line produced by `wrapText` either measures at most `maxWidth` or is a
single word of the input (an element of `text.split(' ')`): an over-wide
word is kept on its own line rather than split. -/
theorem wrapText_line_fits_or_single_word
    (measure : List Char → ℚ) (text : List Char) (maxWidth : ℚ)
    (l : List Char) (hl : l ∈ wrapText measure text maxWidth) :
    measure l ≤ maxWidth ∨ l ∈ splitOnSpace text :=
  wrapTextGo_lines_fit measure maxWidth (splitOnSpace text)
    (splitOnSpace text) [] [] (fun _ hw => hw) (Or.inl rfl) (by simp) l hl

/-- Witness for `wrapText_line_fits_or_single_word` at a concrete input. -/
theorem wrapText_line_fits_or_single_word_witness :
    ("world".toList ∈ wrapText lenMeasure "hello world".toList 5) ∧
    (lenMeasure "world".toList ≤ 5 ∨
      "world".toList ∈ splitOnSpace "hello world".toList) :=
  ⟨by decide, wrapText_line_fits_or_single_word lenMeasure
    "hello world".toList 5 "world".toList (by decide)⟩

/-- C8 (amended): `wrapText` is idempotent on texts whose space-separated
words are all non-empty: rejoining the produced lines with single spaces
and wrapping again at the same width yields the same lines, for every
measurement function. -/
theorem wrapText_idempotent_of_nonempty_words
    (measure : List Char → ℚ) (text : List Char) (maxWidth : ℚ)
    (h : ∀ w ∈ splitOnSpace text, w ≠ []) :
    wrapText measure (joinSpace (wrapText measure text maxWidth)) maxWidth =
      wrapText measure text maxWidth := by
  have hgood : ∀ w ∈ splitOnSpace text, w ≠ [] ∧ ' ' ∉ w :=
    fun w hw => ⟨h w hw, splitOnSpace_no_space text w hw⟩
  have hkey := wrapTextGo_split_roundtrip measure maxWidth (splitOnSpace text)
    [] hgood (by simp) (fun _ => splitOnSpace_ne_nil text)
  rw [joinSpace_nil] at hkey
  simp only [List.nil_append] at hkey
  show wrapTextGo measure maxWidth
      (splitOnSpace (joinSpace
        (wrapTextGo measure maxWidth (splitOnSpace text) [] []))) [] [] =
    wrapTextGo measure maxWidth (splitOnSpace text) [] []
  rw [hkey]

/-- Witness for `wrapText_idempotent_of_nonempty_words` at a concrete input. -/
theorem wrapText_idempotent_of_nonempty_words_witness :
    (∀ w ∈ splitOnSpace "hello world".toList, w ≠ []) ∧
    wrapText lenMeasure
        (joinSpace (wrapText lenMeasure "hello world".toList 5)) 5 =
      wrapText lenMeasure "hello world".toList 5 :=
  ⟨by decide, wrapText_idempotent_of_nonempty_words lenMeasure
    "hello world".toList 5 (by decide)⟩

/-- C8 counterexample: on the text `'a  b'` (double space, hence an empty
word) with a measurement function under which `'a '` overflows but
`'a b'` fits, wrapping once gives `['a','b']` but re-wrapping the rejoined
text `'a b'` gives `['a b']`: `wrapText` is not idempotent for every text
and measurement function. -/
theorem wrapText_not_idempotent_cex :
    wrapText cexMeasure (joinSpace (wrapText cexMeasure cexText 5)) 5 ≠
      wrapText cexMeasure cexText 5 := by decide

/-- C10: for every text whose space-separated words are all non-empty and
every measurement function, joining the wrapped lines with single spaces
reconstructs the input text exactly (no word dropped, duplicated,
reordered or altered). -/
theorem wrapText_join_preserves_text
    (measure : List Char → ℚ) (text : List Char) (maxWidth : ℚ)
    (h : ∀ w ∈ splitOnSpace text, w ≠ []) :
    joinSpace (wrapText measure text maxWidth) = text := by
  cases hsp : splitOnSpace text with
  | nil => exact absurd hsp (splitOnSpace_ne_nil text)
  | cons w ws =>
    have hw : w ≠ [] := h w (by rw [hsp]; simp)
    have htail : ∀ u ∈ ws, u ≠ [] :=
      fun u hu => h u (by rw [hsp]; exact List.mem_cons_of_mem _ hu)
    show joinSpace (wrapTextGo measure maxWidth (splitOnSpace text) [] []) = text
    rw [hsp]
    simp only [wrapTextGo, ne_eq, not_true_eq_false, and_false, if_false]
    rw [wrapTextGo_join measure maxWidth ws w hw htail, ← hsp,
      joinSpace_splitOnSpace]

/-- Witness for `wrapText_join_preserves_text` at a concrete input. -/
theorem wrapText_join_preserves_text_witness :
    (∀ w ∈ splitOnSpace "hi there friend".toList, w ≠ []) ∧
    joinSpace (wrapText lenMeasure "hi there friend".toList 6) =
      "hi there friend".toList :=
  ⟨by decide, wrapText_join_preserves_text lenMeasure
    "hi there friend".toList 6 (by decide)⟩

theorem easeInOutCubic_le_half (t : ℚ) (h0 : 0 ≤ t) (h1 : t < 1/2) :
    easeInOutCubic t ≤ 1/2 := by
  rw [easeInOutCubic, if_pos (by norm_num [h1] : t < (0.5 : ℚ))]
  nlinarith [mul_nonneg (mul_nonneg h0 h0) h0, sq_nonneg t,
    mul_nonneg h0 h0]

theorem easeInOutCubic_ge_half (t : ℚ) (h1 : ¬t < 1/2) (h2 : t ≤ 1) :
    1/2 ≤ easeInOutCubic t := by
  rw [easeInOutCubic, if_neg (by norm_num [h1] : ¬t < (0.5 : ℚ))]
  have ha : (0 : ℚ) ≤ -2 * t + 2 := by linarith [not_lt.1 h1]
  have hb : -2 * t + 2 ≤ 1 := by linarith [not_lt.1 h1]
  nlinarith [mul_nonneg ha ha, mul_nonneg (mul_nonneg ha ha) ha,
    sq_nonneg (-2 * t + 2)]

/-- C9: the easing function equals `4t³` below `t = 0.5` and
`1 − (−2t+2)³/2` from `t = 0.5` on; `ease(0) = 0`, `ease(1/2) = 1/2`,
`ease(1) = 1`; and it is monotonically non-decreasing on `[0, 1]`. -/
theorem easeInOutCubic_spec :
    (∀ t : ℚ, t < 1/2 → easeInOutCubic t = 4 * t ^ 3) ∧
    (∀ t : ℚ, ¬t < 1/2 → easeInOutCubic t = 1 - (-2 * t + 2) ^ 3 / 2) ∧
    easeInOutCubic 0 = 0 ∧ easeInOutCubic (1/2) = 1/2 ∧
    easeInOutCubic 1 = 1 ∧
    (∀ s t : ℚ, 0 ≤ s → s ≤ t → t ≤ 1 →
      easeInOutCubic s ≤ easeInOutCubic t) := by
  refine ⟨?_, ?_, ?_, ?_, ?_, ?_⟩
  · intro t ht
    rw [easeInOutCubic, if_pos (by norm_num [ht] : t < (0.5 : ℚ))]
    ring
  · intro t ht
    rw [easeInOutCubic, if_neg (by norm_num [ht] : ¬t < (0.5 : ℚ))]
  · norm_num [easeInOutCubic]
  · norm_num [easeInOutCubic]
  · norm_num [easeInOutCubic]
  · intro s t hs hst ht1
    by_cases hs2 : s < 1/2
    · by_cases ht2 : t < 1/2
      · rw [easeInOutCubic, if_pos (by norm_num [hs2] : s < (0.5 : ℚ)),
          easeInOutCubic, if_pos (by norm_num [ht2] : t < (0.5 : ℚ))]
        nlinarith [sq_nonneg (s + t), sq_nonneg (s - t),
          mul_nonneg hs hs, mul_nonneg (le_trans hs hst) (le_trans hs hst)]
      · exact le_trans (easeInOutCubic_le_half s hs hs2)
          (easeInOutCubic_ge_half t ht2 ht1)
    · have ht2 : ¬t < 1/2 := fun h => hs2 (lt_of_le_of_lt hst h)
      rw [easeInOutCubic, if_neg (by norm_num [hs2] : ¬s < (0.5 : ℚ)),
        easeInOutCubic, if_neg (by norm_num [ht2] : ¬t < (0.5 : ℚ))]
      have ha : (0 : ℚ) ≤ -2 * t + 2 := by linarith
      have hb : -2 * t + 2 ≤ -2 * s + 2 := by linarith
      have hc : (0 : ℚ) ≤ -2 * s + 2 := le_trans ha hb
      nlinarith [sq_nonneg ((-2 * t + 2) + (-2 * s + 2)),
        sq_nonneg ((-2 * t + 2) - (-2 * s + 2)), mul_nonneg ha ha,
        mul_nonneg ha hc, mul_nonneg hc hc]

/-- Witness for `easeInOutCubic_spec`: its clauses applied at concrete
inputs. -/
theorem easeInOutCubic_spec_witness :
    ((1/4 : ℚ) < 1/2 ∧ easeInOutCubic (1/4) = 4 * (1/4) ^ 3) ∧
    ((0 : ℚ) ≤ 1/4 ∧ (1/4 : ℚ) ≤ 3/4 ∧ (3/4 : ℚ) ≤ 1 ∧
      easeInOutCubic (1/4) ≤ easeInOutCubic (3/4)) :=
  ⟨⟨by norm_num, easeInOutCubic_spec.1 (1/4) (by norm_num)⟩,
   ⟨by norm_num, by norm_num, by norm_num,
    easeInOutCubic_spec.2.2.2.2.2 (1/4) (3/4) (by norm_num) (by norm_num)
      (by norm_num)⟩⟩

theorem sumDur_nil : sumDur [] = 0 := by simp [sumDur]

theorem sumDur_cons (b : Beat) (bs : List Beat) :
    sumDur (b :: bs) = b.durationMs + sumDur bs := by simp [sumDur]

theorem foldl_add_durationMs (bs : List Beat) :
    ∀ a : ℚ, bs.foldl (fun x b => x + b.durationMs) a = a + sumDur bs := by
  induction bs with
  | nil => intro a; simp [sumDur_nil]
  | cons b bs ih =>
    intro a
    rw [List.foldl_cons, ih, sumDur_cons]
    ring

theorem totalDuration_eq_sumDur (bs : List Beat) :
    totalDuration bs = sumDur bs := by
  rw [totalDuration, foldl_add_durationMs]
  ring

theorem beatScanGo_spec :
    ∀ (bs : List Beat) (i : ℕ) (t bst : ℚ), 0 ≤ t → t < sumDur bs →
    ∃ k, beatScanGo bs i t bst =
        (i + k, t - sumDur (bs.take k), bst + sumDur (bs.take k)) ∧
      k < bs.length ∧ sumDur (bs.take k) ≤ t ∧ t < sumDur (bs.take (k + 1)) ∧
      ∀ j, sumDur (bs.take j) ≤ t → t < sumDur (bs.take (j + 1)) → k ≤ j := by
  intro bs
  induction bs with
  | nil =>
    intro i t bst h0 hlt
    rw [sumDur_nil] at hlt
    exact absurd hlt (by linarith)
  | cons b bs ih =>
    intro i t bst h0 hlt
    by_cases hb : t < b.durationMs
    · refine ⟨0, ?_, by simp, ?_, ?_, fun j _ _ => Nat.zero_le j⟩
      · simp [beatScanGo, if_pos hb, sumDur_nil]
      · simp [sumDur_nil]
        exact h0
      · simpa [sumDur_cons, sumDur_nil] using hb
    · have hble : b.durationMs ≤ t := not_lt.1 hb
      have h0' : (0 : ℚ) ≤ t - b.durationMs := by linarith
      have hlt' : t - b.durationMs < sumDur bs := by
        rw [sumDur_cons] at hlt
        linarith
      obtain ⟨k, hk, hklen, hk1, hk2, hkmin⟩ :=
        ih (i + 1) (t - b.durationMs) (bst + b.durationMs) h0' hlt'
      refine ⟨k + 1, ?_, ?_, ?_, ?_, ?_⟩
      · rw [show beatScanGo (b :: bs) i t bst =
            beatScanGo bs (i + 1) (t - b.durationMs) (bst + b.durationMs) by
          simp [beatScanGo, if_neg hb]]
        rw [hk]
        simp only [List.take_succ_cons, sumDur_cons, Prod.mk.injEq]
        refine ⟨by omega, by ring, by ring⟩
      · simp
        omega
      · rw [List.take_succ_cons, sumDur_cons]
        linarith
      · rw [List.take_succ_cons, sumDur_cons]
        linarith
      · intro j hj1 hj2
        cases j with
        | zero =>
          rw [List.take_succ_cons, List.take_zero, sumDur_cons, sumDur_nil] at hj2
          exact absurd hj2 (by linarith)
        | succ j =>
          rw [List.take_succ_cons, sumDur_cons] at hj1 hj2
          have := hkmin j (by linarith) (by linarith)
          omega

/-- C5: for `0 ≤ elapsed < totalDuration`, the beat-resolution scan stops at
the first beat whose cumulative start is `≤ elapsed` and whose cumulative
end is `> elapsed`, with `intraBeatElapsedMs = elapsed - cumulative start`
and `progressWithinBeat = clamp(intra / durationMs, 0, 1)`. -/
theorem beatScan_resolves_first_covering_beat
    (beats : List Beat) (e : ℚ) (h0 : 0 ≤ e)
    (hlt : e < totalDuration beats) :
    ∃ i, beatScan beats e = (i, e - cumDur beats i, cumDur beats i) ∧
      i < beats.length ∧
      cumDur beats i ≤ e ∧ e < cumDur beats (i + 1) ∧
      (∀ j, cumDur beats j ≤ e → e < cumDur beats (j + 1) → i ≤ j) ∧
      ∃ b, beats[i]? = some b ∧
        progressAt beats e =
          min 1 (max 0 ((e - cumDur beats i) / b.durationMs)) := by
  rw [totalDuration_eq_sumDur] at hlt
  obtain ⟨k, hk, hklen, hk1, hk2, hkmin⟩ := beatScanGo_spec beats 0 e 0 h0 hlt
  have hk' : beatScan beats e = (k, e - cumDur beats k, cumDur beats k) := by
    rw [beatScan, hk]
    simp [cumDur]
  refine ⟨k, hk', hklen, hk1, hk2, hkmin, beats[k], ?_, ?_⟩
  · exact List.getElem?_eq_getElem hklen
  · rw [progressAt, hk']
    simp [List.getElem?_eq_getElem hklen]

/-- Witness for `beatScan_resolves_first_covering_beat`: Scenario B,
beats `[A:1000, B:2000]` at `elapsedMs = 1500` (resolves to beat "B" with
`intraBeatElapsedMs = 500`). -/
theorem beatScan_resolves_first_covering_beat_witness :
    ((0 : ℚ) ≤ 1500 ∧ (1500 : ℚ) < totalDuration demoBeats ∧
      beatScan demoBeats 1500 = (1, 500, 1000)) ∧
    (∃ i, beatScan demoBeats 1500 =
        (i, 1500 - cumDur demoBeats i, cumDur demoBeats i) ∧
      i < demoBeats.length ∧
      cumDur demoBeats i ≤ 1500 ∧ (1500 : ℚ) < cumDur demoBeats (i + 1) ∧
      (∀ j, cumDur demoBeats j ≤ 1500 → (1500 : ℚ) < cumDur demoBeats (j + 1) →
        i ≤ j) ∧
      ∃ b, demoBeats[i]? = some b ∧
        progressAt demoBeats 1500 =
          min 1 (max 0 ((1500 - cumDur demoBeats i) / b.durationMs))) :=
  ⟨⟨by norm_num, by norm_num [totalDuration, demoBeats],
    by norm_num [beatScan, beatScanGo, demoBeats]⟩,
   beatScan_resolves_first_covering_beat demoBeats 1500 (by norm_num)
     (by norm_num [totalDuration, demoBeats])⟩

/-- C1 (code bug): at `elapsedMs = totalDuration = 3000` — the value the
render loop passes for the frozen terminal frame — the scan of
`[A:1000, B:2000]` leaves `beatIndex = 0`: it returns the FIRST beat with
`intraBeatElapsedMs = 0`, not the last beat (index `1`) frozen at its full
duration `2000`, because the loop only assigns `beatIndex` on `break` and
never breaks once `elapsed` reaches the total. -/
theorem beatScan_overrun_returns_first_beat :
    totalDuration demoBeats = 3000 ∧
    beatScan demoBeats 3000 = (0, 0, 3000) ∧
    demoBeats.length - 1 = 1 := by
  refine ⟨by norm_num [totalDuration, demoBeats], ?_, by norm_num [demoBeats]⟩
  norm_num [beatScan, beatScanGo, demoBeats]

theorem scanLoop_isSome (p : ReelPlan) :
    ∀ (n i : ℕ) (t bst : ℚ), i + n ≤ p.beats.length →
    (scanLoop (some p) n i t bst).isSome := by
  intro n
  induction n with
  | zero => intro i t bst _; simp [scanLoop]
  | succ n ih =>
    intro i t bst hlen
    have hi : i < p.beats.length := by omega
    simp only [scanLoop, List.getElem?_eq_getElem hi]
    split
    · simp
    · exact ih (i + 1) _ _ (by omega)

/-- C7 (amended): for every plan value (including a missing plan), every
measurement function and every surface size, `drawFrame` completes
without throwing and emits the header title, the CTA line and the hashtag
line; an absent CTA or hashtag list is drawn as the empty string, while
an absent title is drawn as the fallback text `'Reel'`. -/
theorem drawFrame_never_throws_and_field_defaults
    (measure : List Char → ℚ) (cw ch : ℚ) (plan : Option ReelPlan) (e : ℚ) :
    (∃ ops, drawFrame measure cw ch plan e = some ops ∧
      DrawOp.fillTextOp (titleTextOf plan) 64 120 ∈ ops ∧
      DrawOp.fillTextOp (ctaTextOf plan)
        ((cw - measure (ctaTextOf plan)) / 2) (ch - 160) ∈ ops ∧
      DrawOp.fillTextOp (tagsTextOf plan) 64 (ch - 100) ∈ ops) ∧
    (plan.bind (fun p => p.cta) = none → ctaTextOf plan = []) ∧
    (plan.bind (fun p => p.hashtags) = none → tagsTextOf plan = []) ∧
    (plan.bind (fun p => p.title) = none →
      titleTextOf plan = "Reel".toList) := by
  refine ⟨?_, ?_, ?_, ?_⟩
  · have hscan : ∃ v, scanLoop plan
        (match plan with | none => 0 | some p => p.beats.length) 0 e 0 =
        some v := by
      cases plan with
      | none => exact ⟨(0, e, 0), rfl⟩
      | some p =>
        exact Option.isSome_iff_exists.mp
          (scanLoop_isSome p p.beats.length 0 e 0 (by omega))
    obtain ⟨⟨bi, t, bst⟩, hv⟩ := hscan
    simp only [drawFrame]
    rw [hv]
    refine ⟨_, rfl, ?_, ?_, ?_⟩ <;> simp
  · intro h
    cases plan with
    | none => rfl
    | some p =>
      simp only [Option.bind] at h
      simp [ctaTextOf, h]
  · intro h
    cases plan with
    | none => rfl
    | some p =>
      simp only [Option.bind] at h
      simp [tagsTextOf, h]
  · intro h
    cases plan with
    | none => rfl
    | some p =>
      simp only [Option.bind] at h
      simp [titleTextOf, h]

/-- Witness for `drawFrame_never_throws_and_field_defaults` at a concrete
input: a plan with all optional fields absent, surface `100 × 200`. -/
theorem drawFrame_never_throws_and_field_defaults_witness :
    (∃ ops, drawFrame zeroMeasure 100 200 (some planNoFields) 0 = some ops ∧
      DrawOp.fillTextOp (titleTextOf (some planNoFields)) 64 120 ∈ ops ∧
      DrawOp.fillTextOp (ctaTextOf (some planNoFields))
        ((100 - zeroMeasure (ctaTextOf (some planNoFields))) / 2)
        (200 - 160) ∈ ops ∧
      DrawOp.fillTextOp (tagsTextOf (some planNoFields)) 64 (200 - 100) ∈
        ops) ∧
    ctaTextOf (some planNoFields) = [] ∧
    tagsTextOf (some planNoFields) = [] ∧
    titleTextOf (some planNoFields) = "Reel".toList :=
  ⟨(drawFrame_never_throws_and_field_defaults zeroMeasure 100 200
      (some planNoFields) 0).1,
   (drawFrame_never_throws_and_field_defaults zeroMeasure 100 200
      (some planNoFields) 0).2.1 rfl,
   (drawFrame_never_throws_and_field_defaults zeroMeasure 100 200
      (some planNoFields) 0).2.2.1 rfl,
   (drawFrame_never_throws_and_field_defaults zeroMeasure 100 200
      (some planNoFields) 0).2.2.2 rfl⟩

/-- C7 counterexample: on a plan whose `title` field is absent, the title
slot of the frame (`fillText` at the header position `(64, 120)`) is drawn
with the fallback text `'Reel'`, not with the empty string: no op draws
the empty string at the header position. -/
theorem drawFrame_absent_title_drawn_as_fallback :
    DrawOp.fillTextOp "Reel".toList 64 120 ∈
      (drawFrame zeroMeasure 100 200 (some planNoFields) 0).getD [] ∧
    DrawOp.fillTextOp [] 64 120 ∉
      (drawFrame zeroMeasure 100 200 (some planNoFields) 0).getD [] := by
  norm_num [drawFrame, scanLoop, planNoFields, titleTextOf, ctaTextOf,
    tagsTextOf, zeroMeasure, totalDuration, joinSpace]
  decide

/-- C4: `play()` is a no-op when no plan is loaded or when already playing;
starting from an idle state with no scheduled callback, calling `play()`
twice in a row leaves exactly one scheduled tick callback and the playing
flag set. -/
theorem play_noop_and_single_schedule :
    (∀ (now : ℚ) (s : PrevState), play none now s = s) ∧
    (∀ (p : ReelPlan) (now : ℚ) (s : PrevState), s.isPlaying = true →
      play (some p) now s = s) ∧
    (∀ (p : ReelPlan) (now1 now2 : ℚ) (s : PrevState),
      s.isPlaying = false → s.rafPending = 0 →
      (play (some p) now2 (play (some p) now1 s)).rafPending = 1 ∧
      (play (some p) now2 (play (some p) now1 s)).isPlaying = true) := by
  refine ⟨?_, ?_, ?_⟩
  · intro now s
    simp [play]
  · intro p now s h
    simp [play, h]
  · intro p now1 now2 s h1 h2
    simp [play, h1, h2]

/-- Witness for `play_noop_and_single_schedule`: double `play()` from the
idle state on a loaded plan. -/
theorem play_noop_and_single_schedule_witness :
    ((⟨false, 0, 0⟩ : PrevState).isPlaying = false ∧
      (⟨false, 0, 0⟩ : PrevState).rafPending = 0) ∧
    (play (some demoPlan) 20 (play (some demoPlan) 10
      ⟨false, 0, 0⟩)).rafPending = 1 ∧
    (play (some demoPlan) 20 (play (some demoPlan) 10
      ⟨false, 0, 0⟩)).isPlaying = true :=
  ⟨⟨rfl, rfl⟩,
   play_noop_and_single_schedule.2.2 demoPlan 10 20 ⟨false, 0, 0⟩ rfl rfl⟩

/-- C2 (code bug): a capture stopped externally before its first tick never
restores the surface geometry and never resolves.  With pre-capture
geometry `1080 × 1728` (props `400 × 640`), after `stop()` and the next
capture tick the surface is still at the full capture resolution
`1080 × 1920`, the recorder was never stopped and the capture promise is
still unresolved — the restoration code (lines 194-198) is unreachable on
this path. -/
theorem capture_external_stop_leaves_full_geometry :
    capDemoStopped.geom = ⟨1080, 1920, 1080, 1920⟩ ∧
    capDemoStopped.prev = ⟨1080, 1728, 400, 640⟩ ∧
    capDemoStopped.geom ≠ capDemoStopped.prev ∧
    capDemoStopped.outcome = none ∧
    capDemoStopped.recStopped = false := by
  norm_num [capDemoStopped, runCapture, capStep, capInit, effectGeom,
    FULL_W, FULL_H, min_def]

/-- C3 (code bug): a successfully completed capture does not restore the
snapshotted geometry.  With props `400 × 640` the snapshot taken at the
start of the capture is `1080 × 1728`, but after completion the surface is
set to `400 × 640`, computed from the props (lines 194-197) — the snapshot
`prevW/prevH/prevStyle` of line 158 is never used.  The capture does
resolve with the artifact and re-renders the `elapsed = 0` frame last. -/
theorem capture_success_geometry_from_props_not_snapshot :
    capDemoSuccess.outcome = some () ∧
    capDemoSuccess.geom = ⟨400, 640, 400, 640⟩ ∧
    capDemoSuccess.prev = ⟨1080, 1728, 400, 640⟩ ∧
    capDemoSuccess.geom ≠ capDemoSuccess.prev ∧
    capDemoSuccess.draws = [1000, 0] := by
  norm_num [capDemoSuccess, runCapture, capStep, capInit, effectGeom,
    restoredGeom, FULL_W, FULL_H, min_def]
